import Mathlib

/-!
# simple-http-server: path sanitisation, request parsing, connection handling, thread pool

A shallow embedding of `simple-http-server.cpp`.

* A `std::string` is a list of characters (`Str`); a byte is a character of code below 256.
* `std::getline` in a `while` loop is modelled by the list of tokens it hands out.
* The socket, `stat` and the file contents are an explicit environment (`Env`); the handler
  returns the trace of the system calls it makes.
* `ThreadPool` is a step function over the queue, the stop flag and the workers' states.
-/

namespace SimpleHttpServer

/-- A `std::string`. -/
abbrev Str := List Char

/-! ## String primitives of the C++ library used by the source -/

/-- The terminating byte of a C string. -/
def NUL : Char := Char.ofNat 0

/-- What `s.c_str()` denotes to a C function: the bytes before the first NUL. -/
def c_str (s : Str) : Str := s.takeWhile (fun c => c != NUL)

/-- Models `s.substr(pos)` for `pos <= s.size()`. -/
def substr_from (s : Str) (pos : Nat) : Str := s.drop pos

/-- Models `s.substr(pos, n)` for `pos <= s.size()`. -/
def substr (s : Str) (pos n : Nat) : Str := (s.drop pos).take n

/-- Models `s.find_first_of(chars)`: index of the first character of `s` that occurs in `chars`. -/
def find_first_of (s chars : Str) : Option Nat := s.findIdx? (fun c => chars.contains c)

/-- Models `s.find_first_not_of(chars)`. -/
def find_first_not_of (s chars : Str) : Option Nat := s.findIdx? (fun c => !chars.contains c)

/-- Index of the last character of `s` satisfying `p`. -/
def find_last (p : Char → Bool) (s : Str) : Option Nat :=
  match s.reverse.findIdx? p with
  | some k => some (s.length - 1 - k)
  | none => none

/-- Models `s.find_last_of(c)`. -/
def find_last_of (s : Str) (c : Char) : Option Nat := find_last (fun x => x == c) s

/-- Models `s.find_last_not_of(chars)`. -/
def find_last_not_of (s chars : Str) : Option Nat := find_last (fun c => !chars.contains c) s

/-- Models `s.find(c)`. -/
def find_char (s : Str) (c : Char) : Option Nat := s.findIdx? (fun x => x == c)

/-- Models `s.find(needle) != npos`. -/
def contains_sub (needle : Str) : Str → Bool
  | [] => needle.isPrefixOf []
  | c :: cs => needle.isPrefixOf (c :: cs) || contains_sub needle cs

/-- The tokens that `while (getline(ss, token, delim))` hands out over a stream holding `s`:
the pieces between delimiters; a stream that is exhausted yields no further (empty) token. -/
def getlines (delim : Char) : Str → List Str
  | [] => []
  | c :: cs =>
    if c = delim then [] :: getlines delim cs
    else
      match getlines delim cs with
      | [] => [[c]]
      | t :: ts => (c :: t) :: ts

/-- Models `isspace` in the C locale. -/
def isspace (c : Char) : Bool :=
  c == ' ' || c == '\t' || c == '\n' || c == Char.ofNat 11 || c == Char.ofNat 12 || c == '\r'

/-- The whitespace-separated words that successive `stream >> word` extractions yield. -/
def words (s : Str) : List Str :=
  (s.splitOnP isspace).filter (fun w => !w.isEmpty)

/-- Value of a hexadecimal digit. -/
def hexval (c : Char) : Option Nat :=
  if '0' ≤ c ∧ c ≤ '9' then some (c.toNat - '0'.toNat)
  else if 'a' ≤ c ∧ c ≤ 'f' then some (c.toNat - 'a'.toNat + 10)
  else if 'A' ≤ c ∧ c ≤ 'F' then some (c.toNat - 'A'.toNat + 10)
  else none

/-- Whether `c` is a hexadecimal digit. -/
def ishex (c : Char) : Bool := (hexval c).isSome

/-- Value of the run of hexadecimal digits at the head of the input, continuing from `acc`. -/
def scan_digits : Str → Nat → Nat
  | [], acc => acc
  | c :: cs, acc =>
    match hexval c with
    | some d => scan_digits cs (16 * acc + d)
    | none => acc

/-- The unsigned part of a `%x` conversion: at least one digit, an optional `0x` prefix
(a lone `0x` converts as the digit `0`). -/
def scan_unsigned : Str → Option Nat
  | [] => none
  | c :: cs =>
    match hexval c with
    | none => none
    | some d =>
      if c = '0' then
        match cs with
        | [] => some 0
        | x :: ds => if x = 'x' ∨ x = 'X' then some (scan_digits ds 0) else some (scan_digits cs d)
      else some (scan_digits cs d)

/-- Models `sscanf(s.c_str(), "%x", &ii)` for the at most two characters `url_decode` passes:
skip white space, take an optional sign and the hexadecimal number; the result is the new
value of `ii`, which keeps its old value when nothing converts. -/
def sscanf_x (s : Str) (ii : Int) : Int :=
  match (c_str s).dropWhile isspace with
  | [] => ii
  | c :: r =>
    if c = '-' then
      match scan_unsigned r with
      | some v => -(v : Int)
      | none => ii
    else if c = '+' then
      match scan_unsigned r with
      | some v => (v : Int)
      | none => ii
    else
      match scan_unsigned (c :: r) with
      | some v => (v : Int)
      | none => ii

/-- Models `static_cast<char>(ii)`: the low eight bits. -/
def to_char (ii : Int) : Char := Char.ofNat (ii % 256).toNat

/-- Decimal text of a size, as `stream << n` writes it. -/
def decimal (n : Nat) : Str := Nat.toDigits 10 n

/-! ## Utilities of the source -/

/-- The loop of `url_decode` from the current position on: `ii` is the local `int ii`
(which `sscanf` leaves untouched when it converts nothing), the argument is the rest of `src`
from index `i`. An escape consumes the `%` and the up to two characters after it. -/
def url_decode_from (ii : Int) : Str → Str
  | [] => []
  | c :: rest =>
    if c = '%' then
      match rest with
      | [] => [to_char (sscanf_x [] ii)]
      | [a] => [to_char (sscanf_x [a] ii)]
      | a :: b :: rest2 =>
        to_char (sscanf_x [a, b] ii) :: url_decode_from (sscanf_x [a, b] ii) rest2
    else if c = '+' then ' ' :: url_decode_from ii rest
    else c :: url_decode_from ii rest

/-- Models `url_decode(src)`; `ii0` is the indeterminate initial value of the uninitialised local
`ii`. -/
def url_decode (ii0 : Int) (src : Str) : Str := url_decode_from ii0 src

/-- One iteration of the segment loop of `sanitize_path` on the vector `parts`. -/
def sanitize_step (parts : List Str) (token : Str) : List Str :=
  if token = [] ∨ token = ['.'] then parts
  else if token = ['.', '.'] then
    (if parts ≠ [] then parts.dropLast else parts)
  else parts ++ [token]

/-- The output loop of `sanitize_path`: `out += "/" + part` for each part. -/
def join_parts (parts : List Str) : Str :=
  parts.foldl (fun out part => out ++ ('/' :: part)) []

/-- Models `sanitize_path(path)`. -/
def sanitize_path (ii0 : Int) (path : Str) : Str :=
  let p :=
    match find_first_of path ['?', '#'] with
    | some q => substr path 0 q
    | none => path
  let p := url_decode ii0 p
  let parts := (getlines '/' p).foldl sanitize_step []
  let out := join_parts parts
  if out = [] then ['/'] else out

/-- Models `get_extension(path)`. -/
def get_extension (path : Str) : Str :=
  match find_last_of path '.' with
  | none => []
  | some dot => substr_from path (dot + 1)

/-- A `std::map<string, string>`: the code only assigns `m[k] = v` and looks keys up, so the
map is kept as an association list with at most one entry per key. -/
abbrev StrMap := List (Str × Str)

/-- The assignment `m[k] = v`: insert, or overwrite the entry of `k`. -/
def map_set (m : StrMap) (k v : Str) : StrMap :=
  (k, v) :: m.filter (fun e => e.1 != k)

/-- The lookup `m.find(k)`. -/
def map_find (m : StrMap) (k : Str) : Option Str := m.lookup k

/-- Models `default_mime_types()`. -/
def default_mime_types : StrMap :=
  let m : StrMap := []
  let m := map_set m "html".toList "text/html".toList
  let m := map_set m "htm".toList "text/html".toList
  let m := map_set m "css".toList "text/css".toList
  let m := map_set m "js".toList "application/javascript".toList
  let m := map_set m "json".toList "application/json".toList
  let m := map_set m "png".toList "image/png".toList
  let m := map_set m "jpg".toList "image/jpeg".toList
  let m := map_set m "jpeg".toList "image/jpeg".toList
  let m := map_set m "gif".toList "image/gif".toList
  let m := map_set m "svg".toList "image/svg+xml".toList
  let m := map_set m "txt".toList "text/plain".toList
  let m := map_set m "pdf".toList "application/pdf".toList
  let m := map_set m "ico".toList "image/x-icon".toList
  m

/-! ## The environment of one connection -/

/-- What a file opened by `ifstream ifs(path, ios::binary)` answers to `read_file`. -/
structure FileView where
  /-- The result of `ifs.tellg()` after `ifs.seekg(0, ios::end)`: the size of the file, or
  `-1` when the stream has failed. -/
  tellg : Int
  /-- The bytes `ifs.read(out.data(), len)` delivers after `ifs.seekg(0, ios::beg)` when it
  is asked for enough; a short or failed read delivers fewer. -/
  data : Str
  /-- A stream position is `-1` or a non-negative signed 64-bit offset. -/
  tellg_range : -1 ≤ tellg ∧ tellg < 2 ^ 63

/-- What the operating system answers during one call of `handle_client`. -/
structure Env where
  /-- The results of the successive `recv` calls: the bytes received (at most 8192 in a
  call); the empty list stands for a result `n <= 0` (no data, an error, or the 5-second
  timeout), and so does the end of the script. -/
  recvs : List Str
  /-- The results of the successive `send` calls: the number of bytes accepted, or a value
  `<= 0` for a failure; after the end of the script every `send` accepts all it is given. -/
  sends : List Int
  /-- The answer of `stat(path, &st)`: `none` when it fails, else whether `S_ISREG` holds. -/
  stat : Str → Option Bool
  /-- The file `ifstream(path, ios::binary)` opens, `none` when it cannot. -/
  file : Str → Option FileView

/-- A system call of `handle_client` that the client or the file system can observe. -/
inductive Event where
  /-- The call `stat(path, &st)`. -/
  | stat (path : Str)
  /-- The `ifstream` opened by `read_file` on `path`. -/
  | read_file (path : Str)
  /-- One call `send_all(sock, data, len)`, with the number of bytes the socket accepted. -/
  | send_all (data : Str) (accepted : Nat)
  /-- The call `close(client_sock)`. -/
  | close
  /-- The call of `std::terminate`: an exception left `handle_client` and the worker's
  thread function uncaught, which ends the process. -/
  | terminate
  deriving DecidableEq, Repr

/-- Result of `send_all`: its return value, the bytes accepted, the rest of the script. -/
structure SendResult where
  ok : Bool
  accepted : Nat
  rest : List Int
  deriving DecidableEq, Repr

/-- The loop of `send_all` with `total` bytes sent so far out of `len`. A `send` never
accepts more than it is given. -/
def send_all_from : List Int → Nat → Nat → SendResult
  | [], len, total => if total < len then ⟨true, len, []⟩ else ⟨true, total, []⟩
  | r :: rs, len, total =>
    if total < len then
      if r ≤ 0 then ⟨false, total, rs⟩
      else send_all_from rs len (total + min r.toNat (len - total))
    else ⟨true, total, r :: rs⟩

/-- Models `send_all(sock, data, len)` against the script of `send` results. -/
def send_all (script : List Int) (data : Str) : SendResult :=
  send_all_from script data.length 0

/-- The largest size `vector<char>::resize` accepts (`max_size()`, the largest
`ptrdiff_t`); a larger request throws `std::length_error`. -/
def max_size : Nat := 2 ^ 63 - 1

/-- How a call of `read_file` ends. -/
inductive ReadOutcome where
  /-- It returned `false`: the stream could not be opened. -/
  | failed
  /-- The call `out.resize(len)` threw; nothing in the program catches it. -/
  | thrown
  /-- It returned `true` with `out` holding these bytes. -/
  | ok (out : Str)
  deriving DecidableEq, Repr

/-- Models `read_file(path, out)`. The stream is opened on `path.c_str()`; `len` is
`tellg()` converted to the 64-bit `size_t` (so `-1` becomes `2^64 - 1`); `out.resize(len)` fills `out`
with `len` zero bytes or throws; `ifs.read` overwrites the front of `out` with the bytes it
gets, at most `len`, and its result is not checked. -/
def read_file (env : Env) (path : Str) : ReadOutcome :=
  match env.file (c_str path) with
  | none => ReadOutcome.failed
  | some f =>
    let len : Nat := (f.tellg % 2 ^ 64).toNat
    if len > max_size then ReadOutcome.thrown
    else
      let out := List.replicate len NUL
      let got := f.data.take len
      ReadOutcome.ok (got ++ out.drop got.length)

/-! ## HTTP handling -/

/-- Models `struct HttpRequest`. -/
structure HttpRequest where
  method : Str
  path : Str
  headers : StrMap
  deriving DecidableEq, Repr

/-- Models `if (!line.empty() && line.back() == '\r') line.pop_back();` -/
def strip_cr (line : Str) : Str :=
  if line ≠ [] ∧ line.getLast? = some '\r' then line.dropLast else line

/-- The lambda `ltrim` of `parse_request`. -/
def ltrim (s : Str) : Str :=
  match find_first_not_of s [' ', '\t'] with
  | some p => substr_from s p
  | none => []

/-- The lambda `rtrim` of `parse_request`. -/
def rtrim (s : Str) : Str :=
  match find_last_not_of s [' ', '\t'] with
  | some p => substr s 0 (p + 1)
  | none => []

/-- The header loop of `parse_request` over the lines still in the stream. -/
def parse_headers : List Str → StrMap → StrMap
  | [], m => m
  | l :: rest, m =>
    let line := strip_cr l
    if line = [] then m
    else
      match find_char line ':' with
      | some colon =>
        let name := substr line 0 colon
        let value := substr_from line (colon + 1)
        parse_headers rest (map_set m name (rtrim (ltrim value)))
      | none => parse_headers rest m

/-- Models `parse_request(raw, req)`: `none` for `false`, else the request filled in. -/
def parse_request (raw : Str) : Option HttpRequest :=
  match getlines '\n' raw with
  | [] => none
  | l :: rest =>
    let line := strip_cr l
    let toks := words line
    some { method := toks.getD 0 [], path := toks.getD 1 [], headers := parse_headers rest [] }

/-- The read loop of `handle_client`: `raw` is the buffer so far. -/
def read_loop (raw : Str) : List Str → Str
  | [] => raw
  | chunk :: rest =>
    if chunk = [] then raw
    else
      let raw2 := raw ++ chunk
      if contains_sub "\r\n\r\n".toList raw2 then raw2
      else if raw2.length > 64 * 1024 then raw2
      else read_loop raw2 rest

/-- The literal 501 response. -/
def resp_501 : Str :=
  "HTTP/1.1 501 Not Implemented\r\nContent-Length: 0\r\nConnection: close\r\n\r\n".toList

/-- The body of the 404 response. -/
def body_404 : Str := "<html><body><h1>404 Not Found</h1></body></html>".toList

/-- The 404 response as the `stringstream` assembles it. -/
def resp_404 : Str :=
  "HTTP/1.1 404 Not Found\r\n".toList ++ "Content-Type: text/html\r\n".toList
    ++ "Content-Length: ".toList ++ decimal body_404.length ++ "\r\n".toList
    ++ "Connection: close\r\n\r\n".toList ++ body_404

/-- The body of the 500 response. -/
def body_500 : Str := "<html><body><h1>500 Internal Server Error</h1></body></html>".toList

/-- The 500 response as the `stringstream` assembles it. -/
def resp_500 : Str :=
  "HTTP/1.1 500 Internal Server Error\r\n".toList ++ "Content-Type: text/html\r\n".toList
    ++ "Content-Length: ".toList ++ decimal body_500.length ++ "\r\n".toList
    ++ "Connection: close\r\n\r\n".toList ++ body_500

/-- The header block of the 200 response. -/
def headers_200 (content_type : Str) (size : Nat) : Str :=
  "HTTP/1.1 200 OK\r\n".toList
    ++ "Content-Type: ".toList ++ content_type ++ "\r\n".toList
    ++ "Content-Length: ".toList ++ decimal size ++ "\r\n".toList
    ++ "Connection: close\r\n".toList
    ++ "Cache-Control: no-cache\r\n".toList
    ++ "\r\n".toList

/-- The path `handle_client` builds from the target: `sanitize_path`, then `index.html`
appended when the result ends in `/`. -/
def request_path (ii0 : Int) (target : Str) : Str :=
  let path := sanitize_path ii0 target
  if path.getLast? = some '/' then path ++ "index.html".toList else path

/-- The content type `handle_client` picks for `fullpath`. -/
def content_type_of (mime_map : StrMap) (fullpath : Str) : Str :=
  match map_find mime_map (get_extension fullpath) with
  | some v => v
  | none => "application/octet-stream".toList

/-- Models `handle_client(client_sock, doc_root, mime_map)` as the trace of its system calls after
the read loop; `ii0` is the indeterminate initial value of the local `ii` of `url_decode`. -/
def handle_client (env : Env) (doc_root : Str) (mime_map : StrMap) (ii0 : Int) : List Event :=
  let raw := read_loop [] env.recvs
  if raw = [] then [Event.close]
  else
    match parse_request raw with
    | none => [Event.close]
    | some req =>
      if req.method ≠ "GET".toList then
        [Event.send_all resp_501 (send_all env.sends resp_501).accepted, Event.close]
      else
        let fullpath := doc_root ++ request_path ii0 req.path
        if env.stat (c_str fullpath) ≠ some true then
          [Event.stat (c_str fullpath),
           Event.send_all resp_404 (send_all env.sends resp_404).accepted, Event.close]
        else
          match read_file env fullpath with
          | ReadOutcome.failed =>
            [Event.stat (c_str fullpath), Event.read_file (c_str fullpath),
             Event.send_all resp_500 (send_all env.sends resp_500).accepted, Event.close]
          | ReadOutcome.thrown =>
            [Event.stat (c_str fullpath), Event.read_file (c_str fullpath), Event.terminate]
          | ReadOutcome.ok body =>
            let headers := headers_200 (content_type_of mime_map fullpath) body.length
            let r := send_all env.sends headers
            if !r.ok then
              [Event.stat (c_str fullpath), Event.read_file (c_str fullpath),
               Event.send_all headers r.accepted, Event.close]
            else if body ≠ [] then
              [Event.stat (c_str fullpath), Event.read_file (c_str fullpath),
               Event.send_all headers r.accepted,
               Event.send_all body (send_all r.rest body).accepted, Event.close]
            else
              [Event.stat (c_str fullpath), Event.read_file (c_str fullpath),
               Event.send_all headers r.accepted, Event.close]

/-- The bytes the client receives: of each `send_all` the part the socket accepted. -/
def wire : List Event → Str
  | [] => []
  | Event.send_all data accepted :: rest => data.take accepted ++ wire rest
  | _ :: rest => wire rest

/-! ## ThreadPool -/

/-- A queued `function<void()>`, named by the connection it handles. -/
abbrev Task := Nat

/-- Where a worker thread is in its loop. -/
inductive Worker where
  /-- At the top of the loop: about to take the lock and wait on the condition. -/
  | waiting
  /-- Outside the lock, in `task()`. -/
  | running (t : Task)
  /-- Returned from the thread function. -/
  | exited
  deriving DecidableEq, Repr

/-- The members of `ThreadPool` guarded by `queue_mutex`, the workers, and two history
variables: everything ever enqueued and every dequeue (worker, task), both in order. -/
structure ThreadPool where
  tasks : List Task
  stop : Bool
  workers : List Worker
  submitted : List Task
  taken : List (Nat × Task)
  deriving DecidableEq, Repr

/-- The atomic steps: each is one critical section under `queue_mutex`, or the end of a
task. -/
inductive Action where
  /-- The call `enqueue(f)`. -/
  | enqueue (f : Task)
  /-- Worker `i` passes `condition.wait` and leaves its critical section. -/
  | wake (i : Nat)
  /-- Worker `i` returns from `task()`. -/
  | finish (i : Nat)
  /-- The critical section of `~ThreadPool()`: `stop = true`. -/
  | shutdown
  deriving DecidableEq, Repr

/-- Models `ThreadPool(n)`: `n` workers at the top of their loop, an empty queue, `stop(false)`. -/
def ThreadPool.init (n : Nat) : ThreadPool :=
  { tasks := [], stop := false, workers := List.replicate n Worker.waiting,
    submitted := [], taken := [] }

/-- One step; `none` when the action is not enabled (the worker is blocked or absent). -/
def ThreadPool.step (s : ThreadPool) : Action → Option ThreadPool
  | Action.enqueue f =>
    some { s with tasks := s.tasks ++ [f], submitted := s.submitted ++ [f] }
  | Action.shutdown => some { s with stop := true }
  | Action.finish i =>
    match s.workers[i]? with
    | some (Worker.running _) => some { s with workers := s.workers.set i Worker.waiting }
    | _ => none
  | Action.wake i =>
    match s.workers[i]? with
    | some Worker.waiting =>
      if s.stop || !s.tasks.isEmpty then
        if s.stop && s.tasks.isEmpty then
          some { s with workers := s.workers.set i Worker.exited }
        else
          match s.tasks with
          | [] => none
          | t :: q =>
            some { s with tasks := q, workers := s.workers.set i (Worker.running t),
                          taken := s.taken ++ [(i, t)] }
      else none
    | _ => none

/-- Run a schedule of actions. -/
def ThreadPool.run (s : ThreadPool) : List Action → Option ThreadPool
  | [] => some s
  | a :: rest =>
    match s.step a with
    | some s2 => ThreadPool.run s2 rest
    | none => none

/-! ## Auxiliary notions used by the statements -/

/-- An accepted path segment: non-empty, without `/`, and neither `.` nor `..`. -/
def GoodSeg (s : Str) : Prop := s ≠ [] ∧ '/' ∉ s ∧ s ≠ ['.'] ∧ s ≠ ['.', '.']

/-- The segments `sanitize_path` has accepted when its loop ends (the vector `parts`). -/
def parts_of (ii0 : Int) (path : Str) : List Str :=
  let p :=
    match find_first_of path ['?', '#'] with
    | some q => substr path 0 q
    | none => path
  (getlines '/' (url_decode ii0 p)).foldl sanitize_step []

/-- Segments written out each with a leading `/`. -/
def slash_join (segs : List Str) : Str := segs.flatMap (fun seg => '/' :: seg)

/-- Whether every `%` of the target is followed by two hexadecimal digits. -/
def well_escaped : Str → Bool
  | [] => true
  | c :: rest =>
    (if c = '%' then
      match rest with
      | a :: b :: _ => ishex a && ishex b
      | _ => false
    else true) && well_escaped rest

/-! ## The path resolver as the specification words it (five steps) -/

namespace Spec

/-- Step 1: truncate at the first `?` or `#`. -/
def truncate (t : Str) : Str := t.takeWhile (fun c => c != '?' && c != '#')

/-- Step 2: replace each `%HH` by the byte of value `HH` and each literal `+` by a space. -/
def decode : Str → Str
  | [] => []
  | c :: rest =>
    let unescaped := (if c = '+' then ' ' else c) :: decode rest
    if c = '%' then
      match rest with
      | a :: b :: rest2 =>
        match hexval a, hexval b with
        | some x, some y => Char.ofNat (16 * x + y) :: decode rest2
        | _, _ => unescaped
      | _ => unescaped
    else unescaped

/-- Step 3: split on `/`, discarding empty segments and segments equal to `.`. -/
def segments (s : Str) : List Str :=
  (s.splitOn '/').filter (fun seg => decide (seg ≠ [] ∧ seg ≠ ['.']))

/-- Step 4: left to right on a stack; `..` pops the last accepted segment if there is one. -/
def resolve (segs : List Str) : List Str :=
  segs.foldl (fun stack seg => if seg = ['.', '.'] then stack.dropLast else stack ++ [seg]) []

/-- Step 5: rejoin the accepted segments each prefixed with `/`; `/` when none remain. -/
def rejoin (segs : List Str) : Str :=
  if segs = [] then ['/'] else segs.flatMap (fun seg => '/' :: seg)

/-- The five steps in order. -/
def sanitize (t : Str) : Str := rejoin (resolve (segments (decode (truncate t))))

end Spec

/-! ## Content type by file name, as the specification words it -/

/-- The text after the last `d` of `s` (all of `s` when it has none). -/
def after_last (d : Char) (s : Str) : Str := (s.reverse.takeWhile (fun c => c != d)).reverse

/-- The file name of a path: the text after its last `/`. -/
def file_name (path : Str) : Str := after_last '/' path

/-- The content type for a file name: the table's entry for the text after the last `.` of
the name, and the generic binary type when the table has none or the name has no `.`. -/
def Spec.content_type (name : Str) : Str :=
  if '.' ∈ name then
    match map_find default_mime_types (after_last '.' name) with
    | some v => v
    | none => "application/octet-stream".toList
  else "application/octet-stream".toList

/-! ## The header mapping as the specification words it -/

namespace Spec

/-- The white space trimmed around a header value: space and horizontal tab. -/
def ows (c : Char) : Bool := c == ' ' || c == '\t'

/-- Trim the surrounding white space. -/
def trim (s : Str) : Str := ((s.dropWhile ows).reverse.dropWhile ows).reverse

/-- The lines of a raw request: the pieces between line feeds, each without one trailing
carriage return. -/
def lines (raw : Str) : List Str :=
  (raw.splitOn '\n').map (fun l => if l.getLast? = some '\r' then l.dropLast else l)

/-- The header lines: the lines after the request line, up to the first blank line. -/
def header_lines (raw : Str) : List Str :=
  (lines raw).tail.takeWhile (fun l => !l.isEmpty)

/-- A header line split on its first `:` into the name and the trimmed value; `none` for a
line without `:`. -/
def split_header (line : Str) : Option (Str × Str) :=
  if ':' ∈ line then
    some (line.takeWhile (fun c => c != ':'),
          trim ((line.dropWhile (fun c => c != ':')).drop 1))
  else none

/-- The value the mapping holds for `name`: that of the last header line with this name. -/
def header_value (raw name : Str) : Option Str :=
  (((header_lines raw).filterMap split_header).reverse.find? (fun e => e.1 == name)).map
    (fun e => e.2)

end Spec

/-! ## The invariant of the thread pool -/

/-- The invariant of a pool built with `n` workers: the history of submissions is the
dequeued tasks, in dequeue order, followed by the queue; there are `n` workers; every dequeue
was made by one of them; a worker has exited only with `stop` set. -/
def ThreadPool.Inv (n : Nat) (s : ThreadPool) : Prop :=
  s.submitted = s.taken.map Prod.snd ++ s.tasks ∧
  s.workers.length = n ∧
  (∀ e ∈ s.taken, e.1 < n) ∧
  (∀ i : Nat, s.workers[i]? = some Worker.exited → s.stop = true)

/-! # Theorems -/

/-! ## Path sanitisation -/

theorem getlines_not_mem (d : Char) (s : Str) : ∀ t ∈ getlines d s, d ∉ t := by
  induction s with
  | nil => simp [getlines]
  | cons c cs ih =>
    intro t ht
    simp only [getlines] at ht
    split at ht
    · rcases List.mem_cons.mp ht with h | h
      · simp [h]
      · exact ih t h
    · rename_i hne
      split at ht
      · simp only [List.mem_singleton] at ht
        subst ht
        simpa using Ne.symm hne
      · rename_i t0 ts heq
        rcases List.mem_cons.mp ht with h | h
        · subst h
          have h0 := ih t0 (by simp [heq])
          simp only [List.mem_cons, not_or]
          exact ⟨Ne.symm hne, h0⟩
        · exact ih t (by simp [heq, h])

theorem sanitize_step_good (parts : List Str) (token : Str)
    (hp : ∀ s ∈ parts, GoodSeg s) (ht : '/' ∉ token) :
    ∀ s ∈ sanitize_step parts token, GoodSeg s := by
  unfold sanitize_step
  split
  · exact hp
  · rename_i h1
    split
    · split
      · intro s hs
        exact hp s (List.mem_of_mem_dropLast hs)
      · exact hp
    · rename_i h2
      intro s hs
      rcases List.mem_append.mp hs with h | h
      · exact hp s h
      · simp only [List.mem_singleton] at h
        subst h
        simp only [not_or] at h1
        exact ⟨h1.1, ht, h1.2, h2⟩

theorem foldl_sanitize_step_good (tokens : List Str) (parts : List Str)
    (hp : ∀ s ∈ parts, GoodSeg s) (ht : ∀ t ∈ tokens, '/' ∉ t) :
    ∀ s ∈ tokens.foldl sanitize_step parts, GoodSeg s := by
  induction tokens generalizing parts with
  | nil => simpa using hp
  | cons t ts ih =>
    simp only [List.foldl_cons]
    apply ih
    · exact sanitize_step_good parts t hp (ht t (by simp))
    · intro u hu
      exact ht u (by simp [hu])

theorem parts_of_good (ii0 : Int) (path : Str) : ∀ s ∈ parts_of ii0 path, GoodSeg s := by
  unfold parts_of
  exact foldl_sanitize_step_good _ [] (by simp) (getlines_not_mem '/' _)

theorem foldl_join (parts : List Str) (acc : Str) :
    parts.foldl (fun out part => out ++ ('/' :: part)) acc = acc ++ slash_join parts := by
  induction parts generalizing acc with
  | nil => simp [slash_join]
  | cons p ps ih =>
    simp only [List.foldl_cons, ih, slash_join, List.flatMap_cons, List.append_assoc]

theorem join_parts_eq (parts : List Str) : join_parts parts = slash_join parts := by
  simp [join_parts, foldl_join]

theorem slash_join_eq_nil (segs : List Str) : slash_join segs = [] ↔ segs = [] := by
  cases segs with
  | nil => simp [slash_join]
  | cons s ss => simp [slash_join]

theorem sanitize_path_eq (ii0 : Int) (path : Str) :
    sanitize_path ii0 path =
      if parts_of ii0 path = [] then ['/'] else slash_join (parts_of ii0 path) := by
  simp only [sanitize_path, parts_of, join_parts_eq, slash_join_eq_nil]

theorem slash_join_head (segs : List Str) (h : segs ≠ []) :
    (slash_join segs).head? = some '/' := by
  cases segs with
  | nil => exact absurd rfl h
  | cons s ss => simp [slash_join]

theorem slash_join_intercalate (segs : List Str) :
    slash_join segs = ['/'].intercalate ([] :: segs) := by
  induction segs with
  | nil => simp [slash_join, List.intercalate]
  | cons s ss ih =>
    cases ss with
    | nil => simp [slash_join, List.intercalate]
    | cons s2 ss2 =>
      simp only [slash_join, List.flatMap_cons, List.intercalate] at ih ⊢
      simp [ih]

theorem splitOn_slash_join (segs : List Str) (h : ∀ s ∈ segs, '/' ∉ s) :
    (slash_join segs).splitOn '/' = [] :: segs := by
  rw [slash_join_intercalate]
  apply List.splitOn_intercalate
  · intro l hl
    rcases List.mem_cons.mp hl with h0 | h0
    · simp [h0]
    · exact h l h0
  · simp

theorem slash_join_getLast (segs : List Str) (h : ∀ s ∈ segs, GoodSeg s) (hne : segs ≠ []) :
    (slash_join segs).getLast? ≠ some '/' := by
  obtain ⟨init, last, rfl⟩ : ∃ init last, segs = init ++ [last] :=
    ⟨segs.dropLast, segs.getLast hne, (List.dropLast_concat_getLast hne).symm⟩
  have hl := h last (by simp)
  obtain ⟨hl1, hl2, -⟩ := hl
  simp only [slash_join, List.flatMap_append, List.flatMap_cons, List.flatMap_nil,
    List.append_nil]
  rw [List.getLast?_append]
  obtain ⟨li, lc, rfl⟩ : ∃ li lc, last = li ++ [lc] :=
    ⟨last.dropLast, last.getLast hl1, (List.dropLast_concat_getLast hl1).symm⟩
  have : ('/' :: (li ++ [lc])).getLast? = some lc := by
    rw [← List.cons_append, List.getLast?_append]; simp
  rw [this]
  intro hc
  have hc2 : lc = '/' := by simpa using hc
  apply hl2
  simp [hc2]

theorem sanitize_path_head (ii0 : Int) (T : Str) : '/' ∈ sanitize_path ii0 T := by
  have h : (sanitize_path ii0 T).head? = some '/' := by
    rw [sanitize_path_eq]
    split
    · rfl
    · rename_i h
      exact slash_join_head _ h
  exact List.mem_of_mem_head? h

/-- C1 (counterexample): under the document root `/srv` the target `/` resolves to `/srv/`,
which is not the root followed only by `/`-prefixed non-empty segments. -/
theorem sanitize_path_root_not_segments :
    ¬ ∃ segs : List Str, (∀ s ∈ segs, GoodSeg s) ∧
        "/srv".toList ++ sanitize_path 0 "/".toList = "/srv".toList ++ slash_join segs := by
  rintro ⟨segs, hgood, heq⟩
  have h1 : sanitize_path 0 "/".toList = ['/'] := by rfl
  rw [h1] at heq
  have h2 := List.append_cancel_left heq
  cases segs with
  | nil => simp [slash_join] at h2
  | cons s ss =>
    have hs := (hgood s (by simp)).1
    simp only [slash_join, List.flatMap_cons, List.cons_append, List.cons.injEq, true_and] at h2
    have h3 : s = [] := (List.append_eq_nil.mp h2.symm).1
    exact hs h3

/-- C1 (amended): for every target `T`, the string `sanitize_path T` starts with `/` and
has no segment `..` when split on `/`; for every document root `R` the string
`R ++ sanitize_path T` is `R ++ "/"` when no segment remains and otherwise `R` followed only
by `/`-prefixed segments that are non-empty, contain no `/` and are neither `.` nor `..`.
The targets `/../../etc/passwd` and `/a/../../b` give `/etc/passwd` and `/b`. -/
theorem sanitize_path_safe (ii0 : Int) (T : Str) :
    (sanitize_path ii0 T).head? = some '/' ∧
    ['.', '.'] ∉ (sanitize_path ii0 T).splitOn '/' ∧
    (∃ segs : List Str, (∀ s ∈ segs, GoodSeg s) ∧
      ∀ R : Str, R ++ sanitize_path ii0 T =
        if segs = [] then R ++ ['/'] else R ++ slash_join segs) ∧
    sanitize_path ii0 "/../../etc/passwd".toList = "/etc/passwd".toList ∧
    sanitize_path ii0 "/a/../../b".toList = "/b".toList := by
  have hgood := parts_of_good ii0 T
  refine ⟨?_, ?_, ⟨parts_of ii0 T, hgood, ?_⟩, rfl, rfl⟩
  · rw [sanitize_path_eq]
    split
    · rfl
    · rename_i h
      exact slash_join_head _ h
  · rw [sanitize_path_eq]
    split
    · decide
    · rw [splitOn_slash_join _ (fun s hs => (hgood s hs).2.1)]
      intro hmem
      rcases List.mem_cons.mp hmem with h | h
      · exact absurd h (by decide)
      · exact (hgood _ h).2.2.2 rfl
  · intro R
    rw [sanitize_path_eq]
    split <;> rfl

/-- C10: `sanitize_path T` ends with `/` exactly when it is `/`, so `handle_client` appends
`index.html` exactly in that case; for the target `/docs/` the candidate path is the document
root followed by `/docs`. -/
theorem sanitize_path_trailing_slash (ii0 : Int) (T R : Str) :
    ((sanitize_path ii0 T).getLast? = some '/' ↔ sanitize_path ii0 T = ['/']) ∧
    (request_path ii0 T =
      if sanitize_path ii0 T = ['/'] then sanitize_path ii0 T ++ "index.html".toList
      else sanitize_path ii0 T) ∧
    R ++ request_path ii0 "/docs/".toList = R ++ "/docs".toList := by
  have hiff : (sanitize_path ii0 T).getLast? = some '/' ↔ sanitize_path ii0 T = ['/'] := by
    constructor
    · intro h
      rw [sanitize_path_eq] at h ⊢
      split
      · rfl
      · rename_i hne
        rw [if_neg hne] at h
        exact absurd h (slash_join_getLast _ (parts_of_good ii0 T) hne)
    · intro h
      rw [h]; rfl
  refine ⟨hiff, ?_, ?_⟩
  · unfold request_path
    simp only [hiff]
  · have h : request_path ii0 "/docs/".toList = "/docs".toList := by rfl
    rw [h]

/-! ## The source against the five steps of the specification -/

theorem take_findIdx_eq_takeWhile (p : Char → Bool) (l : Str) :
    (match l.findIdx? p with
      | some q => substr l 0 q
      | none => l) = l.takeWhile (fun c => !p c) := by
  induction l with
  | nil => simp
  | cons x xs ih =>
    by_cases hx : p x = true
    · simp [List.findIdx?_cons, hx, substr, List.takeWhile_cons]
    · simp only [Bool.not_eq_true] at hx
      simp only [List.findIdx?_cons, hx, Bool.false_eq_true, if_false, Nat.zero_add,
        List.findIdx?_succ, List.takeWhile_cons, Bool.not_false, if_true]
      cases hf : xs.findIdx? p with
      | none => simp [hf] at ih ⊢; exact ih
      | some q => simp [hf, substr] at ih ⊢; exact ih

theorem truncate_eq (path : Str) :
    (match find_first_of path ['?', '#'] with
      | some q => substr path 0 q
      | none => path) = Spec.truncate path := by
  unfold find_first_of Spec.truncate
  rw [take_findIdx_eq_takeWhile]
  congr 1
  funext c
  by_cases h1 : c = '?' <;> by_cases h2 : c = '#' <;> simp [h1, h2]

theorem hexval_lt (c : Char) (x : Nat) (h : hexval c = some x) : x < 16 := by
  unfold hexval at h
  simp only [Char.le_def, UInt32.le_def, BitVec.le_def] at h
  have e : c.toNat = c.val.toBitVec.toNat := rfl
  split at h
  · rename_i h1
    have := h1.2
    simp only [Option.some.injEq] at h
    have h9 : ('9' : Char).val.toBitVec.toNat = 57 := by decide
    have h0 : ('0' : Char).toNat = 48 := by decide
    omega
  · split at h
    · rename_i h1
      have := h1.2
      simp only [Option.some.injEq] at h
      have h9 : ('f' : Char).val.toBitVec.toNat = 102 := by decide
      have h0 : ('a' : Char).toNat = 97 := by decide
      have h8 : ('a' : Char).val.toBitVec.toNat = 97 := by decide
      have := h1.1
      omega
    · split at h
      · rename_i h1
        have := h1.2
        simp only [Option.some.injEq] at h
        have h9 : ('F' : Char).val.toBitVec.toNat = 70 := by decide
        have h0 : ('A' : Char).toNat = 65 := by decide
        have h8 : ('A' : Char).val.toBitVec.toNat = 65 := by decide
        have := h1.1
        omega
      · exact absurd h (by simp)

theorem hexval_ne (c k : Char) (x : Nat) (h : hexval c = some x) (hk : hexval k = none) :
    c ≠ k := by
  intro e
  rw [e, hk] at h
  exact absurd h (by simp)

theorem sscanf_x_hex (a b : Char) (x y : Nat) (ii : Int)
    (ha : hexval a = some x) (hb : hexval b = some y) :
    sscanf_x [a, b] ii = ((16 * x + y : Nat) : Int) := by
  have a0 : a ≠ NUL := hexval_ne a _ x ha (by decide)
  have b0 : b ≠ NUL := hexval_ne b _ y hb (by decide)
  have a1 : a ≠ ' ' := hexval_ne a _ x ha (by decide)
  have a2 : a ≠ '\t' := hexval_ne a _ x ha (by decide)
  have a3 : a ≠ '\n' := hexval_ne a _ x ha (by decide)
  have a4 : a ≠ Char.ofNat 11 := hexval_ne a _ x ha (by decide)
  have a5 : a ≠ Char.ofNat 12 := hexval_ne a _ x ha (by decide)
  have a6 : a ≠ '\r' := hexval_ne a _ x ha (by decide)
  have a7 : a ≠ '-' := hexval_ne a _ x ha (by decide)
  have a8 : a ≠ '+' := hexval_ne a _ x ha (by decide)
  have b1 : b ≠ 'x' := hexval_ne b _ y hb (by decide)
  have b2 : b ≠ 'X' := hexval_ne b _ y hb (by decide)
  have hsp : isspace a = false := by simp [isspace, a1, a2, a3, a4, a5, a6]
  have hc : c_str [a, b] = [a, b] := by simp [c_str, List.takeWhile_cons, a0, b0]
  have hd : ([a, b] : Str).dropWhile isspace = [a, b] := by
    simp [List.dropWhile_cons, hsp]
  have hs : scan_unsigned [a, b] = some (16 * x + y) := by
    by_cases hz : a = '0'
    · subst hz
      have h0 : hexval '0' = some 0 := by decide
      rw [h0] at ha
      obtain rfl : 0 = x := by simpa using ha
      simp [scan_unsigned, h0, b1, b2, scan_digits, hb]
    · simp [scan_unsigned, ha, hz, scan_digits, hb]
  unfold sscanf_x
  rw [hc, hd]
  simp only [a7, a8, if_false, hs]

theorem to_char_small (n : Nat) (h : n < 256) : to_char (n : Int) = Char.ofNat n := by
  unfold to_char
  have : ((n : Int) % 256).toNat = n := by omega
  rw [this]

theorem well_escaped_tail (c : Char) (rest : Str) (h : well_escaped (c :: rest) = true) :
    well_escaped rest = true := by
  simp only [well_escaped, Bool.and_eq_true] at h
  exact h.2

theorem url_decode_from_cons_ne (ii : Int) (c : Char) (rest : Str) (hc : c ≠ '%') :
    url_decode_from ii (c :: rest) = (if c = '+' then ' ' else c) :: url_decode_from ii rest := by
  match rest with
  | [] => by_cases hp : c = '+' <;> simp [url_decode_from, hc, hp]
  | [a] => by_cases hp : c = '+' <;> simp [url_decode_from, hc, hp]
  | a :: b :: r => by_cases hp : c = '+' <;> simp [url_decode_from, hc, hp]

theorem decode_cons_ne (c : Char) (rest : Str) (hc : c ≠ '%') :
    Spec.decode (c :: rest) = (if c = '+' then ' ' else c) :: Spec.decode rest := by
  match rest with
  | [] => simp [Spec.decode, hc]
  | [a] => simp [Spec.decode, hc]
  | a :: b :: r => simp [Spec.decode, hc]

theorem url_decode_from_eq (n : Nat) : ∀ (s : Str) (ii : Int), s.length ≤ n →
    well_escaped s = true → url_decode_from ii s = Spec.decode s := by
  induction n with
  | zero =>
    intro s ii hlen _
    have : s = [] := List.length_eq_zero.mp (Nat.le_zero.mp hlen)
    subst this
    rfl
  | succ n ih =>
    intro s ii hlen hw
    cases s with
    | nil => rfl
    | cons c rest =>
      have hwr := well_escaped_tail c rest hw
      have hlr : rest.length ≤ n := by simpa using hlen
      by_cases hc : c = '%'
      · subst hc
        match rest, hw, hwr, hlr with
        | [], hw, _, _ => simp [well_escaped] at hw
        | [a], hw, _, _ => simp [well_escaped] at hw
        | a :: b :: rest2, hw, hwr, hlr =>
          have hw2 : well_escaped rest2 = true :=
            well_escaped_tail b rest2 (well_escaped_tail a _ hwr)
          have hab : ishex a = true ∧ ishex b = true := by
            simp only [well_escaped, if_true, Bool.and_eq_true] at hw
            exact hw.1
          obtain ⟨x, hx⟩ := Option.isSome_iff_exists.mp hab.1
          obtain ⟨y, hy⟩ := Option.isSome_iff_exists.mp hab.2
          have hx16 := hexval_lt a x hx
          have hy16 := hexval_lt b y hy
          have hl2 : rest2.length ≤ n := by
            simp only [List.length_cons] at hlr
            omega
          simp only [url_decode_from, Spec.decode, if_true, hx, hy]
          rw [sscanf_x_hex a b x y ii hx hy, to_char_small _ (by omega), ih rest2 _ hl2 hw2]
      · rw [url_decode_from_cons_ne ii c rest hc, decode_cons_ne c rest hc, ih rest ii hlr hwr]

theorem well_escaped_takeWhile (p : Char → Bool) (hp : ∀ c, ishex c = true → p c = true) :
    ∀ s : Str, well_escaped s = true → well_escaped (s.takeWhile p) = true := by
  intro s
  induction s with
  | nil => intro _; rfl
  | cons c rest ih =>
    intro hw
    have hwr := well_escaped_tail c rest hw
    simp only [List.takeWhile_cons]
    split
    · simp only [well_escaped, Bool.and_eq_true] at hw ⊢
      refine ⟨?_, ih hwr⟩
      split
      · rename_i hc
        rw [if_pos hc] at hw
        match rest, hw with
        | [], hw => simp at hw
        | [a], hw => simp at hw
        | a :: b :: rest2, hw =>
          have hab : ishex a = true ∧ ishex b = true := by simpa using hw.1
          simp [List.takeWhile_cons, hp a hab.1, hp b hab.2, hab.1, hab.2]
      · rfl
    · rfl

theorem splitOn_getlines (d : Char) (s : Str) :
    s.splitOn d = getlines d s ∨ s.splitOn d = getlines d s ++ [[]] := by
  induction s with
  | nil => right; rfl
  | cons c cs ih =>
    simp only [List.splitOn] at ih ⊢
    rw [List.splitOnP_cons]
    by_cases hc : c = d
    · subst hc
      simp only [beq_self_eq_true, if_true, getlines]
      rcases ih with h | h
      · left; rw [h]
      · right; rw [h]; rfl
    · have hb : (c == d) = false := by simpa using hc
      simp only [hb, Bool.false_eq_true, if_false, getlines, hc]
      cases hg : getlines d cs with
      | nil =>
        rw [hg] at ih
        rcases ih with h | h
        · exact absurd h (List.splitOnP_ne_nil _ _)
        · left; rw [h]; rfl
      | cons t ts =>
        rw [hg] at ih
        rcases ih with h | h
        · left; rw [h]; rfl
        · right; rw [h]; rfl

theorem segments_eq (s : Str) :
    Spec.segments s = (getlines '/' s).filter (fun seg => decide (seg ≠ [] ∧ seg ≠ ['.'])) := by
  unfold Spec.segments
  rcases splitOn_getlines '/' s with h | h
  · rw [h]
  · rw [h, List.filter_append]
    simp

theorem foldl_sanitize_step_eq (tokens : List Str) : ∀ acc : List Str,
    tokens.foldl sanitize_step acc =
      (tokens.filter (fun seg => decide (seg ≠ [] ∧ seg ≠ ['.']))).foldl
        (fun stack seg => if seg = ['.', '.'] then stack.dropLast else stack ++ [seg]) acc := by
  induction tokens with
  | nil => intro acc; rfl
  | cons t ts ih =>
    intro acc
    simp only [List.foldl_cons, List.filter_cons]
    by_cases h1 : t = [] ∨ t = ['.']
    · have hk : decide (t ≠ [] ∧ t ≠ ['.']) = false := by
        simp only [decide_eq_false_iff_not, not_and_or, not_not]
        exact h1
      rw [hk]
      simp only [Bool.false_eq_true, if_false]
      rw [← ih]
      simp [sanitize_step, h1]
    · have hk : decide (t ≠ [] ∧ t ≠ ['.']) = true := by
        simp only [decide_eq_true_eq]
        simp only [not_or] at h1
        exact h1
      rw [hk]
      simp only [if_true, List.foldl_cons]
      rw [← ih]
      congr 1
      unfold sanitize_step
      rw [if_neg h1]
      by_cases h2 : t = ['.', '.']
      · rw [if_pos h2, if_pos h2]
        by_cases h3 : acc = []
        · simp [h3]
        · simp [h3]
      · rw [if_neg h2, if_neg h2]

theorem parts_of_eq (ii0 : Int) (T : Str) (h : well_escaped T = true) :
    parts_of ii0 T = Spec.resolve (Spec.segments (Spec.decode (Spec.truncate T))) := by
  unfold parts_of
  simp only [truncate_eq, url_decode]
  have hw : well_escaped (Spec.truncate T) = true := by
    apply well_escaped_takeWhile _ _ T h
    intro c hc
    obtain ⟨x, hx⟩ := Option.isSome_iff_exists.mp hc
    have h1 : c ≠ '?' := hexval_ne c _ x hx (by decide)
    have h2 : c ≠ '#' := hexval_ne c _ x hx (by decide)
    simp [h1, h2]
  rw [url_decode_from_eq _ _ ii0 (Nat.le_refl _) hw, foldl_sanitize_step_eq, segments_eq]
  rfl

/-- C2: for a target in which every `%` is followed by two hexadecimal digits,
`sanitize_path` returns what the five steps of the specification give (truncate at `?` or
`#`, decode `%HH` and `+`, split on `/` dropping empty and `.` segments, resolve `..` on a
stack, rejoin with a leading `/` each, `/` when nothing remains); `/a/./b/../c?x=1#f` gives
`/a/c`, `/a/%2e%2e/b` gives `/b`, `/a+b` gives `/a b` and the empty target gives `/`. -/
theorem sanitize_path_refines_spec (ii0 : Int) :
    (∀ T : Str, well_escaped T = true → sanitize_path ii0 T = Spec.sanitize T) ∧
    sanitize_path ii0 "/a/./b/../c?x=1#f".toList = "/a/c".toList ∧
    sanitize_path ii0 "/a/%2e%2e/b".toList = "/b".toList ∧
    sanitize_path ii0 "/a+b".toList = "/a b".toList ∧
    sanitize_path ii0 [] = "/".toList := by
  refine ⟨?_, rfl, rfl, rfl, rfl⟩
  intro T h
  rw [sanitize_path_eq, parts_of_eq ii0 T h]
  rfl

/-- C2 (witness): the target `/a/%2e%2e/b?q` is well escaped, and there the source and the
five steps agree. -/
theorem sanitize_path_refines_spec_witness :
    well_escaped "/a/%2e%2e/b?q".toList = true ∧
    sanitize_path 7 "/a/%2e%2e/b?q".toList = Spec.sanitize "/a/%2e%2e/b?q".toList :=
  ⟨by decide, (sanitize_path_refines_spec 7).1 "/a/%2e%2e/b?q".toList (by decide)⟩

/-! ## The connection handler -/

theorem send_all_from_ok (script : List Int) : ∀ (len total : Nat), total ≤ len →
    (∀ r ∈ script, 0 < r) →
    (send_all_from script len total).ok = true ∧
    (send_all_from script len total).accepted = len ∧
    ∀ r ∈ (send_all_from script len total).rest, 0 < r := by
  induction script with
  | nil =>
    intro len total hle _
    unfold send_all_from
    split
    · simp
    · refine ⟨rfl, ?_, by simp⟩
      show total = len
      omega
  | cons r rs ih =>
    intro len total hle hpos
    have hr : 0 < r := hpos r (by simp)
    have hrs : ∀ x ∈ rs, 0 < x := fun x hx => hpos x (by simp [hx])
    unfold send_all_from
    split
    · rw [if_neg (by omega)]
      exact ih len _ (by omega) hrs
    · refine ⟨rfl, ?_, ?_⟩
      · show total = len
        omega
      · exact hpos

theorem send_all_ok (script : List Int) (data : Str) (h : ∀ r ∈ script, 0 < r) :
    (send_all script data).ok = true ∧ (send_all script data).accepted = data.length ∧
    ∀ r ∈ (send_all script data).rest, 0 < r :=
  send_all_from_ok script data.length 0 (Nat.zero_le _) h

theorem getlines_eq_nil (d : Char) (s : Str) : getlines d s = [] ↔ s = [] := by
  cases s with
  | nil => simp [getlines]
  | cons c cs =>
    simp only [getlines]
    split
    · simp
    · split <;> simp

theorem parse_request_eq_none (raw : Str) : parse_request raw = none ↔ raw = [] := by
  unfold parse_request
  split
  · rename_i h
    simpa [getlines_eq_nil] using h
  · rename_i l rest h
    constructor
    · intro h2; exact absurd h2 (by simp)
    · intro h2
      rw [h2] at h
      simp [getlines] at h

theorem read_loop_eq_nil (chunks : List Str) :
    read_loop [] chunks = [] ↔ (chunks.head? = none ∨ chunks.head? = some []) := by
  have grow : ∀ (cs : List Str) (raw : Str), raw ≠ [] → read_loop raw cs ≠ [] := by
    intro cs
    induction cs with
    | nil => intro raw h; simpa [read_loop] using h
    | cons c cs ih =>
      intro raw h
      unfold read_loop
      split
      · exact h
      · have h2 : raw ++ c ≠ [] := by simp [h]
        simp only
        split
        · exact h2
        · split
          · exact h2
          · exact ih _ h2
  cases chunks with
  | nil => simp [read_loop]
  | cons c cs =>
    by_cases hc : c = []
    · simp [read_loop, hc]
    · simp only [List.head?_cons, Option.some.injEq, hc, or_false, reduceCtorEq, false_or,
        iff_false]
      unfold read_loop
      rw [if_neg hc]
      have h2 : [] ++ c ≠ [] := by simpa using hc
      simp only
      split
      · exact h2
      · split
        · exact h2
        · exact grow _ _ h2

/-- C3 (counterexample): the only chunk is `GET / HTTP/1.1` with its line end, then the read
times out; the buffer holds no blank line, yet `handle_client` looks the file up and sends
the whole 404 response before it closes the socket. -/
theorem handle_client_answers_unterminated :
    contains_sub "\r\n\r\n".toList (read_loop [] ["GET / HTTP/1.1\r\n".toList, []]) = false ∧
    handle_client
        { recvs := ["GET / HTTP/1.1\r\n".toList, []], sends := [],
          stat := fun _ => none, file := fun _ => none }
        "/srv".toList default_mime_types 0 =
      [Event.stat "/srv/index.html".toList, Event.send_all resp_404 resp_404.length,
       Event.close] ∧
    wire (handle_client
        { recvs := ["GET / HTTP/1.1\r\n".toList, []], sends := [],
          stat := fun _ => none, file := fun _ => none }
        "/srv".toList default_mime_types 0) = resp_404 := by
  refine ⟨by rfl, by rfl, by rfl⟩

/-- C3 (amended): `handle_client` closes the socket without any call of `send_all` exactly
when the read loop ends with an empty buffer, that is when the first `recv` returns no data,
an error or the timeout; its trace is then the single `close`. It does not do so when bytes
were received and the loop ended without the blank line: the buffer is parsed and handled. -/
theorem handle_client_silent_iff (env : Env) (doc_root : Str) (mime_map : StrMap) (ii0 : Int) :
    (handle_client env doc_root mime_map ii0 = [Event.close] ↔
      read_loop [] env.recvs = []) ∧
    (((∀ data k, Event.send_all data k ∉ handle_client env doc_root mime_map ii0) ∧
        Event.close ∈ handle_client env doc_root mime_map ii0) ↔
      read_loop [] env.recvs = []) ∧
    (read_loop [] env.recvs = [] ↔ (env.recvs.head? = none ∨ env.recvs.head? = some [])) := by
  have key : (read_loop [] env.recvs = [] ∧
        handle_client env doc_root mime_map ii0 = [Event.close]) ∨
      (read_loop [] env.recvs ≠ [] ∧
        ((∃ data k, Event.send_all data k ∈ handle_client env doc_root mime_map ii0) ∨
          Event.close ∉ handle_client env doc_root mime_map ii0)) := by
    by_cases hraw : read_loop [] env.recvs = []
    · left
      exact ⟨hraw, by simp [handle_client, hraw]⟩
    · right
      refine ⟨hraw, ?_⟩
      unfold handle_client
      simp only [hraw, if_false]
      cases hp : parse_request (read_loop [] env.recvs) with
      | none => exact absurd ((parse_request_eq_none _).mp hp) hraw
      | some req =>
        simp only
        split
        · exact Or.inl ⟨_, _, List.mem_cons_self _ _⟩
        · split
          · exact Or.inl ⟨_, _, List.mem_cons_of_mem _ (List.mem_cons_self _ _)⟩
          · split
            · exact Or.inl ⟨_, _, List.mem_cons_of_mem _ (List.mem_cons_of_mem _
                (List.mem_cons_self _ _))⟩
            · exact Or.inr (by simp)
            · split
              · exact Or.inl ⟨_, _, List.mem_cons_of_mem _ (List.mem_cons_of_mem _
                  (List.mem_cons_self _ _))⟩
              · split
                · exact Or.inl ⟨_, _, List.mem_cons_of_mem _ (List.mem_cons_of_mem _
                    (List.mem_cons_self _ _))⟩
                · exact Or.inl ⟨_, _, List.mem_cons_of_mem _ (List.mem_cons_of_mem _
                    (List.mem_cons_self _ _))⟩
  have hne : read_loop [] env.recvs ≠ [] →
      handle_client env doc_root mime_map ii0 ≠ [Event.close] := by
    intro hraw
    unfold handle_client
    simp only [hraw, if_false]
    cases hp : parse_request (read_loop [] env.recvs) with
    | none => exact absurd ((parse_request_eq_none _).mp hp) hraw
    | some req =>
      simp only
      split
      · simp
      · split
        · simp
        · split
          · simp
          · simp
          · split
            · simp
            · split <;> simp
  refine ⟨?_, ?_, read_loop_eq_nil env.recvs⟩
  · constructor
    · intro h
      by_contra hraw
      exact hne hraw h
    · intro h
      simp [handle_client, h]
  · rcases key with ⟨h1, h2⟩ | ⟨h1, h3⟩
    · simp [h1, h2]
    · constructor
      · rintro ⟨hs, hc⟩
        rcases h3 with ⟨data, k, hmem⟩ | hnc
        · exact absurd hmem (hs data k)
        · exact absurd hc hnc
      · intro h; exact absurd h h1

/-- C4: when the parsed method is not exactly `GET`, `handle_client` makes one `send_all` of
the literal 501 response (status line, `Content-Length: 0`, `Connection: close`, blank line,
no body) and closes; the trace has no `stat` and no file read and does not depend on the
target, the document root, the mime table or the file system; the client receives exactly
these bytes when every `send` succeeds. -/
theorem handle_client_501 (env : Env) (doc_root : Str) (mime_map : StrMap) (ii0 : Int)
    (req : HttpRequest) (hreq : parse_request (read_loop [] env.recvs) = some req)
    (hm : req.method ≠ "GET".toList) :
    handle_client env doc_root mime_map ii0 =
      [Event.send_all resp_501 (send_all env.sends resp_501).accepted, Event.close] ∧
    resp_501 =
      "HTTP/1.1 501 Not Implemented\r\nContent-Length: 0\r\nConnection: close\r\n\r\n".toList ∧
    (∀ p, Event.stat p ∉ handle_client env doc_root mime_map ii0 ∧
      Event.read_file p ∉ handle_client env doc_root mime_map ii0) ∧
    ((∀ r ∈ env.sends, 0 < r) → wire (handle_client env doc_root mime_map ii0) = resp_501) := by
  have hraw : read_loop [] env.recvs ≠ [] := by
    intro h
    rw [(parse_request_eq_none _).mpr h] at hreq
    exact absurd hreq (by simp)
  have htrace : handle_client env doc_root mime_map ii0 =
      [Event.send_all resp_501 (send_all env.sends resp_501).accepted, Event.close] := by
    unfold handle_client
    simp only [hraw, if_false, hreq, hm, ne_eq, not_false_eq_true, if_true]
  refine ⟨htrace, rfl, ?_, ?_⟩
  · intro p
    rw [htrace]
    simp
  · intro hs
    rw [htrace, (send_all_ok env.sends resp_501 hs).2.1]
    simp [wire]

/-- C4 (witness): a complete `POST` request is answered with the 501 response. -/
theorem handle_client_501_witness :
    wire (handle_client
        { recvs := ["POST /any/target HTTP/1.1\r\nHost: a\r\n\r\n".toList], sends := [3, 500],
          stat := fun _ => some true, file := fun _ => some ⟨4, "data".toList, by norm_num⟩ }
        "/srv".toList default_mime_types 0) = resp_501 :=
  (handle_client_501
    { recvs := ["POST /any/target HTTP/1.1\r\nHost: a\r\n\r\n".toList], sends := [3, 500],
      stat := fun _ => some true, file := fun _ => some ⟨4, "data".toList, by norm_num⟩ }
    "/srv".toList default_mime_types 0
    { method := "POST".toList, path := "/any/target".toList,
      headers := [("Host".toList, "a".toList)] }
    (by rfl) (by decide)).2.2.2 (by decide)

/-- C5: for a `GET` request whose candidate path (document root, `sanitize_path` of the
target, `index.html` appended when that ends in `/`) `stat` reports missing or not a regular
file, `handle_client` sends the 404 response: status line `HTTP/1.1 404 Not Found`, headers
`Content-Type: text/html`, `Content-Length: 48`, `Connection: close`, and the body
`<html><body><h1>404 Not Found</h1></body></html>` of 48 bytes; then it closes. -/
theorem handle_client_404 (env : Env) (doc_root : Str) (mime_map : StrMap) (ii0 : Int)
    (req : HttpRequest) (hreq : parse_request (read_loop [] env.recvs) = some req)
    (hm : req.method = "GET".toList)
    (hstat : env.stat (c_str (doc_root ++ request_path ii0 req.path)) ≠ some true) :
    handle_client env doc_root mime_map ii0 =
      [Event.stat (c_str (doc_root ++ request_path ii0 req.path)),
       Event.send_all resp_404 (send_all env.sends resp_404).accepted, Event.close] ∧
    resp_404 =
      ("HTTP/1.1 404 Not Found\r\nContent-Type: text/html\r\nContent-Length: 48\r\n"
        ++ "Connection: close\r\n\r\n").toList ++ body_404 ∧
    body_404 = "<html><body><h1>404 Not Found</h1></body></html>".toList ∧
    body_404.length = 48 ∧
    ((∀ r ∈ env.sends, 0 < r) → wire (handle_client env doc_root mime_map ii0) = resp_404) := by
  have hraw : read_loop [] env.recvs ≠ [] := by
    intro h
    rw [(parse_request_eq_none _).mpr h] at hreq
    exact absurd hreq (by simp)
  have htrace : handle_client env doc_root mime_map ii0 =
      [Event.stat (c_str (doc_root ++ request_path ii0 req.path)),
       Event.send_all resp_404 (send_all env.sends resp_404).accepted, Event.close] := by
    unfold handle_client
    simp only [hraw, if_false, hreq, hm, ne_eq, not_true_eq_false, hstat, not_false_eq_true,
      if_true]
  refine ⟨htrace, by rfl, rfl, by rfl, ?_⟩
  intro hs
  rw [htrace, (send_all_ok env.sends resp_404 hs).2.1]
  simp [wire]

/-- C5 (witness): `GET /missing.txt` under a root where nothing exists gets the 404
response. -/
theorem handle_client_404_witness :
    wire (handle_client
        { recvs := ["GET /missing.txt HTTP/1.1\r\n\r\n".toList], sends := [],
          stat := fun _ => none, file := fun _ => none }
        "/srv".toList default_mime_types 0) = resp_404 :=
  (handle_client_404
    { recvs := ["GET /missing.txt HTTP/1.1\r\n\r\n".toList], sends := [],
      stat := fun _ => none, file := fun _ => none }
    "/srv".toList default_mime_types 0
    { method := "GET".toList, path := "/missing.txt".toList, headers := [] }
    (by rfl) (by rfl) (by simp)).2.2.2.2 (by simp)

/-! ## Extensions and content types -/

theorem findIdx?_append_cons (p : Char → Bool) (l1 : Str) (x : Char) (l2 : Str)
    (h1 : ∀ c ∈ l1, p c = false) (hx : p x = true) :
    (l1 ++ x :: l2).findIdx? p = some l1.length := by
  induction l1 with
  | nil => simp [List.findIdx?_cons, hx]
  | cons c cs ih =>
    have hc : p c = false := h1 c (by simp)
    have ih2 := ih (fun y hy => h1 y (by simp [hy]))
    simp only [List.cons_append, List.findIdx?_cons, hc, Bool.false_eq_true, if_false,
      Nat.zero_add, List.findIdx?_succ, ih2, Option.map_some', List.length_cons]

theorem exists_last_split (d : Char) (s : Str) (h : d ∈ s) :
    ∃ u e, s = u ++ d :: e ∧ d ∉ e := by
  have hr : d ∈ s.reverse := List.mem_reverse.mpr h
  obtain ⟨as, bs, hab, hna⟩ := List.eq_append_cons_of_mem hr
  refine ⟨bs.reverse, as.reverse, ?_, ?_⟩
  · have := congrArg List.reverse hab
    simpa using this
  · simpa using hna

theorem find_last_split (d : Char) (u e : Str) (he : d ∉ e) :
    find_last (fun x => x == d) (u ++ d :: e) = some u.length := by
  unfold find_last
  have hrev : (u ++ d :: e).reverse = e.reverse ++ d :: u.reverse := by simp
  rw [hrev, findIdx?_append_cons _ _ _ _ _ (by simp)]
  · simp only [List.length_reverse, List.length_append, List.length_cons, Option.some.injEq]
    omega
  · intro c hc
    have hc2 : c ∈ e := List.mem_reverse.mp hc
    have : c ≠ d := fun hcd => he (hcd ▸ hc2)
    simpa using this

theorem find_last_none (d : Char) (s : Str) (h : d ∉ s) :
    find_last (fun x => x == d) s = none := by
  unfold find_last
  have : s.reverse.findIdx? (fun x => x == d) = none := by
    rw [List.findIdx?_eq_none_iff]
    intro x hx
    have hx2 : x ∈ s := List.mem_reverse.mp hx
    have : x ≠ d := fun hxd => h (hxd ▸ hx2)
    simpa using this
  rw [this]

theorem get_extension_split (u e : Str) (he : '.' ∉ e) :
    get_extension (u ++ '.' :: e) = e := by
  unfold get_extension find_last_of
  rw [find_last_split '.' u e he]
  simp [substr_from]

theorem get_extension_none (s : Str) (h : '.' ∉ s) : get_extension s = [] := by
  unfold get_extension find_last_of
  rw [find_last_none '.' s h]

theorem after_last_split (d : Char) (u e : Str) (he : d ∉ e) :
    after_last d (u ++ d :: e) = e := by
  unfold after_last
  have hrev : (u ++ d :: e).reverse = e.reverse ++ d :: u.reverse := by simp
  rw [hrev, List.takeWhile_append_of_pos]
  · simp [List.takeWhile_cons]
  · intro c hc
    have hc2 : c ∈ e := List.mem_reverse.mp hc
    have : c ≠ d := fun hcd => he (hcd ▸ hc2)
    simpa using this

theorem mime_key_no_slash (e : Str) (h : '/' ∈ e) : map_find default_mime_types e = none := by
  unfold map_find
  rw [List.lookup_eq_none_iff]
  intro p hp
  have hkeys : ∀ q ∈ default_mime_types, '/' ∉ q.1 := by decide
  have hne : e ≠ p.1 := fun heq => hkeys p hp (heq ▸ h)
  simpa using hne

theorem content_type_of_eq (full : Str) (h : '/' ∈ full) :
    content_type_of default_mime_types full = Spec.content_type (file_name full) := by
  obtain ⟨pre, name, hfull, hname⟩ := exists_last_split '/' full h
  have hfn : file_name full = name := by
    rw [hfull]; exact after_last_split '/' pre name hname
  rw [hfn]
  unfold content_type_of Spec.content_type
  by_cases hdot : '.' ∈ name
  · obtain ⟨n1, e, hn, he⟩ := exists_last_split '.' name hdot
    have hf2 : full = (pre ++ '/' :: n1) ++ '.' :: e := by
      rw [hfull, hn]; simp
    rw [if_pos hdot, hf2, get_extension_split _ e he, hn, after_last_split '.' n1 e he]
  · rw [if_neg hdot]
    by_cases hfd : '.' ∈ full
    · obtain ⟨u, e, hu, he⟩ := exists_last_split '.' full hfd
      have hext : get_extension full = e := by
        rw [hu]; exact get_extension_split u e he
      have hslash : '/' ∈ e := by
        have heq : pre ++ '/' :: name = u ++ '.' :: e := by rw [← hfull, ← hu]
        rcases List.append_eq_append_iff.mp heq with ⟨a, _, ha⟩ | ⟨c, _, hc⟩
        · cases a with
          | nil =>
            simp only [List.nil_append, List.cons.injEq] at ha
            exact absurd ha.1 (by decide)
          | cons a0 as =>
            simp only [List.cons_append, List.cons.injEq] at ha
            exact absurd (by rw [ha.2]; simp) hdot
        · cases c with
          | nil =>
            simp only [List.nil_append, List.cons.injEq] at hc
            exact absurd hc.1 (by decide)
          | cons c0 cs =>
            simp only [List.cons_append, List.cons.injEq] at hc
            rw [hc.2]; simp
      rw [hext, mime_key_no_slash e hslash]
    · rw [get_extension_none full hfd]
      rfl

theorem request_path_slash (ii0 : Int) (T : Str) : '/' ∈ request_path ii0 T := by
  have h := (sanitize_path_head ii0 T)
  unfold request_path
  simp only
  split
  · exact List.mem_append_left _ h
  · exact h

theorem getlines_append_delim (d : Char) (x y : Str) :
    getlines d (x ++ d :: y) = x.splitOn d ++ getlines d y := by
  induction x with
  | nil => simp [getlines]
  | cons c cs ih =>
    simp only [List.splitOn] at ih ⊢
    rw [List.splitOnP_cons, List.cons_append]
    by_cases hc : c = d
    · subst hc
      have hg : getlines c (c :: (cs ++ c :: y)) = [] :: getlines c (cs ++ c :: y) := by
        rw [getlines]; simp
      rw [hg, ih]
      simp
    · have hb : (c == d) = false := by simpa using hc
      have hg : getlines d (c :: (cs ++ d :: y)) =
          match getlines d (cs ++ d :: y) with
          | [] => [[c]]
          | t :: ts => (c :: t) :: ts := by
        rw [getlines]; simp [hc]
      rw [hg, ih]
      cases hs : List.splitOnP (fun x => x == d) cs with
      | nil => exact absurd hs (List.splitOnP_ne_nil _ _)
      | cons t ts => simp [hb]

theorem read_file_thrown (env : Env) (path : Str) (f : FileView)
    (hfile : env.file (c_str path) = some f) (hsize : f.tellg = -1) :
    read_file env path = ReadOutcome.thrown := by
  unfold read_file
  rw [hfile]
  have hmax : max_size = 2 ^ 63 - 1 := rfl
  have hlen : (f.tellg % 2 ^ 64).toNat = 2 ^ 64 - 1 := by
    rw [hsize]
    rfl
  simp only [hlen]
  rw [if_pos (by omega)]

/-- C8 (failing input): under the root `/srv`, whose `index.html` is a regular file holding
`<h1>hi</h1>`, the request `GET /index.html%00.png` makes `handle_client` stat and read
`/srv/index.html` (the C string of the path ends at the decoded NUL) and send its bytes with
`Content-Type: image/png`, the entry for the text after the last `.` of the whole string;
the entry for the extension of the file served is `text/html`. -/
theorem content_type_nul_mismatch :
    handle_client
        { recvs := ["GET /index.html%00.png HTTP/1.1\r\n\r\n".toList], sends := [],
          stat := fun p => if p = "/srv/index.html".toList then some true else none,
          file := fun p =>
            if p = "/srv/index.html".toList then
              some ⟨11, "<h1>hi</h1>".toList, by norm_num⟩
            else none }
        "/srv".toList default_mime_types 0 =
      [Event.stat "/srv/index.html".toList, Event.read_file "/srv/index.html".toList,
       Event.send_all (headers_200 "image/png".toList 11)
         (headers_200 "image/png".toList 11).length,
       Event.send_all "<h1>hi</h1>".toList 11, Event.close] ∧
    c_str ("/srv".toList ++ request_path 0 "/index.html%00.png".toList) =
      "/srv/index.html".toList ∧
    Spec.content_type (file_name "/srv/index.html".toList) = "text/html".toList ∧
    headers_200 "image/png".toList 11 =
      ("HTTP/1.1 200 OK\r\nContent-Type: image/png\r\nContent-Length: 11\r\n"
        ++ "Connection: close\r\nCache-Control: no-cache\r\n\r\n").toList := by
  refine ⟨by rfl, by rfl, by rfl, by rfl⟩

/-! ## The header mapping -/

theorem drop_findIdx_eq_dropWhile (p : Char → Bool) (l : Str) :
    (match l.findIdx? p with
      | some k => l.drop k
      | none => []) = l.dropWhile (fun c => !p c) := by
  induction l with
  | nil => simp
  | cons x xs ih =>
    by_cases hx : p x = true
    · simp [List.findIdx?_cons, hx, List.dropWhile_cons]
    · simp only [Bool.not_eq_true] at hx
      simp only [List.findIdx?_cons, hx, Bool.false_eq_true, if_false, Nat.zero_add,
        List.findIdx?_succ, List.dropWhile_cons, Bool.not_false, if_true]
      cases hf : xs.findIdx? p with
      | none => simp [hf] at ih ⊢; exact ih
      | some q => simp [hf] at ih ⊢; exact ih

theorem not_contains_ows (c : Char) : (!!([' ', '\t'] : Str).contains c) = Spec.ows c := by
  by_cases h1 : c = ' ' <;> by_cases h2 : c = '\t' <;> simp [Spec.ows, h1, h2]

theorem ltrim_eq (s : Str) : ltrim s = s.dropWhile Spec.ows := by
  unfold ltrim find_first_not_of substr_from
  rw [drop_findIdx_eq_dropWhile]
  congr 1
  funext c
  exact not_contains_ows c

theorem rtrim_eq (s : Str) : rtrim s = (s.reverse.dropWhile Spec.ows).reverse := by
  have hG := drop_findIdx_eq_dropWhile (fun c => !([' ', '\t'] : Str).contains c) s.reverse
  have hfun : (fun c => !!([' ', '\t'] : Str).contains c) = Spec.ows := by
    funext c; exact not_contains_ows c
  rw [hfun] at hG
  rw [← hG]
  unfold rtrim find_last_not_of find_last
  cases hf : s.reverse.findIdx? (fun c => !([' ', '\t'] : Str).contains c) with
  | none => simp
  | some k =>
    have hk : k < s.reverse.length := (List.findIdx?_eq_some_iff_findIdx_eq.mp hf).1
    simp only [List.length_reverse] at hk
    simp only [substr, List.drop_zero]
    rw [List.reverse_drop]
    simp only [List.reverse_reverse, List.length_reverse]
    congr 1
    omega

theorem split_header_eq (line : Str) :
    (match find_char line ':' with
      | some colon =>
        some (substr line 0 colon, rtrim (ltrim (substr_from line (colon + 1))))
      | none => none) = Spec.split_header line := by
  unfold Spec.split_header find_char
  have hT := take_findIdx_eq_takeWhile (fun x => x == ':') line
  have hD := drop_findIdx_eq_dropWhile (fun x => x == ':') line
  have hfun : (fun c : Char => !(c == ':')) = (fun c => c != ':') := by
    funext c; rfl
  rw [hfun] at hT hD
  cases hf : line.findIdx? (fun x => x == ':') with
  | none =>
    have hno : ':' ∉ line := by
      intro hmem
      have := List.findIdx?_eq_none_iff.mp hf _ hmem
      simp at this
    simp [hno]
  | some k =>
    have hmem : ':' ∈ line := by
      by_contra hno
      have : line.findIdx? (fun x => x == ':') = none := by
        rw [List.findIdx?_eq_none_iff]
        intro x hx
        have : x ≠ ':' := fun e => hno (e ▸ hx)
        simpa using this
      rw [this] at hf
      exact absurd hf (by simp)
    rw [hf] at hT hD
    simp only at hT hD
    simp only [if_pos hmem, Option.some.injEq, Prod.mk.injEq]
    refine ⟨hT, ?_⟩
    rw [rtrim_eq, ltrim_eq, Spec.trim, ← hD]
    simp [substr_from, List.drop_drop, Nat.add_comm]

theorem lookup_filter_ne (m : StrMap) (k name : Str) (h : name ≠ k) :
    List.lookup name (m.filter (fun e => e.1 != k)) = List.lookup name m := by
  induction m with
  | nil => rfl
  | cons e es ih =>
    obtain ⟨a, b⟩ := e
    by_cases ha : a = k
    · subst ha
      have hb : (name == a) = false := by simpa using h
      simp [List.filter_cons, List.lookup_cons, hb, ih]
    · have hne : (a != k) = true := by simpa using ha
      simp only [List.filter_cons, hne, if_true, List.lookup_cons, ih]

theorem map_find_map_set (m : StrMap) (k v name : Str) :
    map_find (map_set m k v) name = if name = k then some v else map_find m name := by
  unfold map_find map_set
  by_cases h : name = k
  · subst h
    simp [List.lookup_cons]
  · have hb : (name == k) = false := by simpa using h
    simp only [List.lookup_cons, hb, if_neg h]
    exact lookup_filter_ne m k name h

theorem parse_headers_lookup (ls : List Str) : ∀ (m : StrMap) (name : Str),
    map_find (parse_headers ls m) name =
      match (((ls.map strip_cr).takeWhile (fun l => !l.isEmpty)).filterMap
          Spec.split_header).reverse.find? (fun e => e.1 == name) with
      | some e => some e.2
      | none => map_find m name := by
  induction ls with
  | nil => intro m name; simp [parse_headers]
  | cons l rest ih =>
    intro m name
    by_cases hblank : strip_cr l = []
    · simp [parse_headers, hblank]
    · have hne : (!(strip_cr l).isEmpty) = true := by
        cases hs : strip_cr l with
        | nil => exact absurd hs hblank
        | cons _ _ => rfl
      have hsplit := split_header_eq (strip_cr l)
      simp only [parse_headers, hblank, if_false, List.map_cons, List.takeWhile_cons, hne,
        if_true, List.filterMap_cons]
      cases hc : find_char (strip_cr l) ':' with
      | none =>
        rw [hc] at hsplit
        simp only at hsplit
        rw [← hsplit]
        simp only
        exact ih m name
      | some colon =>
        rw [hc] at hsplit
        simp only at hsplit
        rw [← hsplit]
        simp only [List.reverse_cons, List.find?_append]
        rw [ih]
        cases hfind : List.find? (fun e => e.1 == name)
            (List.filterMap Spec.split_header
              (List.takeWhile (fun l => !l.isEmpty) (List.map strip_cr rest))).reverse with
        | some e => simp
        | none =>
          simp only [Option.none_or, map_find_map_set]
          by_cases hn : name = substr (strip_cr l) 0 colon
          · simp [hn]
          · have hb : (substr (strip_cr l) 0 colon == name) = false := by
              simpa using Ne.symm hn
            simp [hn, hb]

theorem strip_cr_eq (l : Str) :
    strip_cr l = if l.getLast? = some '\r' then l.dropLast else l := by
  unfold strip_cr
  by_cases h : l.getLast? = some '\r'
  · have hne : l ≠ [] := by
      intro e; rw [e] at h; simp at h
    simp [h, hne]
  · simp [h]

theorem takeWhile_append_stop (p : Str → Bool) (xs : List Str) (x : Str) (hx : p x = false) :
    (xs ++ [x]).takeWhile p = xs.takeWhile p := by
  induction xs with
  | nil => simp [List.takeWhile_cons, hx]
  | cons y ys ih =>
    simp only [List.cons_append, List.takeWhile_cons, ih]

theorem header_lines_eq (raw l : Str) (rest : List Str) (h : getlines '\n' raw = l :: rest) :
    Spec.header_lines raw = (rest.map strip_cr).takeWhile (fun l => !l.isEmpty) := by
  unfold Spec.header_lines Spec.lines
  have hfun : (fun l : Str => if l.getLast? = some '\r' then l.dropLast else l) = strip_cr := by
    funext l; exact (strip_cr_eq l).symm
  rw [hfun]
  rcases splitOn_getlines '\n' raw with hs | hs
  · rw [hs, h]
    simp
  · rw [hs, h]
    simp only [List.cons_append, List.map_cons, List.tail_cons, List.map_append, List.map_nil]
    apply takeWhile_append_stop
    rfl

theorem parse_headers_blank (xs : List Str) (l : Str) (ys : List Str) (hl : strip_cr l = []) :
    ∀ m : StrMap, parse_headers (xs ++ l :: ys) m = parse_headers (xs ++ [l]) m := by
  induction xs with
  | nil => intro m; simp [parse_headers, hl]
  | cons x xs ih =>
    intro m
    simp only [List.cons_append, parse_headers]
    split
    · rfl
    · split
      · exact ih _
      · exact ih _

theorem parse_request_after_blank (head t : Str) :
    parse_request (head ++ "\r\n\r\n".toList ++ t) = parse_request (head ++ "\r\n\r\n".toList) := by
  have key : ∀ u : Str, getlines '\n' (head ++ "\r\n\r\n".toList ++ u) =
      (head ++ ['\r']).splitOn '\n' ++ (['\r'] :: getlines '\n' u) := by
    intro u
    have e : head ++ "\r\n\r\n".toList ++ u = (head ++ ['\r']) ++ '\n' :: (['\r'] ++ '\n' :: u) := by
      simp
    rw [e, getlines_append_delim, getlines_append_delim]
    rfl
  have h1 := key t
  have h2 := key []
  simp only [List.append_nil] at h2
  unfold parse_request
  rw [h1, h2]
  cases hs : (head ++ ['\r']).splitOn '\n' with
  | nil => exact absurd hs (List.splitOnP_ne_nil _ _)
  | cons a as =>
    simp only [List.cons_append, Option.some.injEq, HttpRequest.mk.injEq, true_and]
    have hcr : strip_cr ['\r'] = [] := by decide
    rw [parse_headers_blank as ['\r'] (getlines '\n' t) hcr,
      parse_headers_blank as ['\r'] (getlines '\n' []) hcr]

/-- C7: when `parse_request` accepts a raw request, the header mapping it fills holds for
every name the value of the last line, among those after the request line and before the
first blank line, whose text before its first `:` is that name in the case received, the
value being the text after that `:` with surrounding spaces and tabs trimmed; and whatever
follows the blank line does not change the parsed request. -/
theorem parse_request_headers (raw : Str) (req : HttpRequest)
    (h : parse_request raw = some req) :
    (∀ name : Str, map_find req.headers name = Spec.header_value raw name) ∧
    (∀ head t : Str, parse_request (head ++ "\r\n\r\n".toList ++ t) =
      parse_request (head ++ "\r\n\r\n".toList)) := by
  refine ⟨?_, parse_request_after_blank⟩
  intro name
  unfold parse_request at h
  cases hg : getlines '\n' raw with
  | nil => rw [hg] at h; exact absurd h (by simp)
  | cons l rest =>
    rw [hg] at h
    simp only [Option.some.injEq] at h
    subst h
    simp only
    rw [parse_headers_lookup, Spec.header_value, header_lines_eq raw l rest hg]
    cases List.find? (fun e => e.1 == name)
        (List.filterMap Spec.split_header
          (List.takeWhile (fun l => !l.isEmpty) (List.map strip_cr rest))).reverse with
    | some e => rfl
    | none => rfl

/-- C7 (witness): two `Host` lines, a value padded with spaces and a tab, a line without
`:`, and a header-like line after the blank line. -/
theorem parse_request_headers_witness :
    map_find
        ({ method := "GET".toList, path := "/x".toList,
           headers := [("Host".toList, "z".toList), ("X-Y".toList, "b c".toList)] } :
          HttpRequest).headers "Host".toList =
      Spec.header_value
        "GET /x HTTP/1.1\r\nHost: a\r\nX-Y:  b c \t\r\nnocolon\r\nHost:z\r\n\r\nLate: 1\r\n".toList
        "Host".toList :=
  (parse_request_headers
    "GET /x HTTP/1.1\r\nHost: a\r\nX-Y:  b c \t\r\nnocolon\r\nHost:z\r\n\r\nLate: 1\r\n".toList
    { method := "GET".toList, path := "/x".toList,
      headers := [("Host".toList, "z".toList), ("X-Y".toList, "b c".toList)] }
    (by rfl)).1 "Host".toList

/-! ## ThreadPool -/

theorem ThreadPool.inv_init (n : Nat) : ThreadPool.Inv n (ThreadPool.init n) := by
  refine ⟨rfl, by simp [ThreadPool.init], by simp [ThreadPool.init], ?_⟩
  intro i hi
  simp only [ThreadPool.init] at hi
  rw [List.getElem?_replicate] at hi
  split at hi <;> simp at hi

theorem getElem?_set_exited (ws : List Worker) (i j : Nat) (w : Worker)
    (hw : w ≠ Worker.exited) (h : (ws.set i w)[j]? = some Worker.exited) :
    ws[j]? = some Worker.exited := by
  rw [List.getElem?_set] at h
  split at h
  · split at h
    · simp only [Option.some.injEq] at h
      exact absurd h hw
    · exact absurd h (by simp)
  · exact h

theorem ThreadPool.step_exit (s s2 : ThreadPool) (a : Action) (i : Nat) (h : s.step a = some s2)
    (h1 : s.workers[i]? ≠ some Worker.exited) (h2 : s2.workers[i]? = some Worker.exited) :
    s.stop = true ∧ s.tasks = [] := by
  cases a with
  | enqueue f =>
    simp only [ThreadPool.step, Option.some.injEq] at h
    subst h
    exact absurd h2 h1
  | shutdown =>
    simp only [ThreadPool.step, Option.some.injEq] at h
    subst h
    exact absurd h2 h1
  | finish j =>
    simp only [ThreadPool.step] at h
    split at h
    · simp only [Option.some.injEq] at h
      subst h
      exact absurd (getElem?_set_exited _ _ _ _ (by simp) h2) h1
    · exact absurd h (by simp)
  | wake j =>
    simp only [ThreadPool.step] at h
    split at h
    · split at h
      · split at h
        · rename_i hse
          simp only [Bool.and_eq_true, List.isEmpty_iff] at hse
          exact hse
        · split at h
          · exact absurd h (by simp)
          · simp only [Option.some.injEq] at h
            subst h
            exact absurd (getElem?_set_exited _ _ _ _ (by simp) h2) h1
      · exact absurd h (by simp)
    · exact absurd h (by simp)

theorem ThreadPool.inv_step (n : Nat) (s s2 : ThreadPool) (a : Action) (hinv : ThreadPool.Inv n s)
    (h : s.step a = some s2) : ThreadPool.Inv n s2 := by
  obtain ⟨hsub, hlen, htaken, hexit⟩ := hinv
  cases a with
  | enqueue f =>
    simp only [ThreadPool.step, Option.some.injEq] at h
    subst h
    exact ⟨by simp [hsub], hlen, htaken, hexit⟩
  | shutdown =>
    simp only [ThreadPool.step, Option.some.injEq] at h
    subst h
    exact ⟨hsub, hlen, htaken, fun _ _ => rfl⟩
  | finish j =>
    simp only [ThreadPool.step] at h
    split at h
    · simp only [Option.some.injEq] at h
      subst h
      refine ⟨hsub, by simpa using hlen, htaken, ?_⟩
      intro i hi
      exact hexit i (getElem?_set_exited _ _ _ _ (by simp) hi)
    · exact absurd h (by simp)
  | wake j =>
    simp only [ThreadPool.step] at h
    split at h
    · rename_i hw
      split at h
      · split at h
        · rename_i hse
          simp only [Bool.and_eq_true, List.isEmpty_iff] at hse
          simp only [Option.some.injEq] at h
          subst h
          exact ⟨hsub, by simpa using hlen, htaken, fun _ _ => hse.1⟩
        · split at h
          · exact absurd h (by simp)
          · rename_i t q hq
            simp only [Option.some.injEq] at h
            subst h
            have hj : j < n := by
              have := (List.getElem?_eq_some_iff.mp hw).1
              omega
            refine ⟨?_, by simpa using hlen, ?_, ?_⟩
            · simp [hsub, hq]
            · intro e he
              rcases List.mem_append.mp he with he1 | he1
              · exact htaken e he1
              · simp only [List.mem_singleton] at he1
                subst he1
                exact hj
            · intro i hi
              exact hexit i (getElem?_set_exited _ _ _ _ (by simp) hi)
      · exact absurd h (by simp)
    · exact absurd h (by simp)

theorem ThreadPool.inv_run (n : Nat) (acts : List Action) : ∀ (s s2 : ThreadPool), ThreadPool.Inv n s →
    ThreadPool.run s acts = some s2 → ThreadPool.Inv n s2 := by
  induction acts with
  | nil =>
    intro s s2 hinv h
    simp only [ThreadPool.run, Option.some.injEq] at h
    subst h
    exact hinv
  | cons a rest ih =>
    intro s s2 hinv h
    simp only [ThreadPool.run] at h
    split at h
    · rename_i s1 hs1
      exact ih s1 s2 (ThreadPool.inv_step n s s1 a hinv hs1) h
    · exact absurd h (by simp)

/-- C9: in every state the pool reaches from `ThreadPool(n)` by enqueues, workers' locked
dequeues, task completions and shutdown, the submitted tasks are exactly the dequeued tasks
in dequeue order followed by the queue (so nothing is lost or duplicated: every task is
counted as often in the submissions as in the dequeues and the queue together, one submitted
once is either once in the queue or dequeued once, and dequeues follow submission order);
every dequeue was made by one of the `n` workers; a worker that has exited implies `stop`,
and a step in which a worker exits starts from a state with `stop` set and the queue
empty. -/
theorem pool_invariant (n : Nat) (acts : List Action) (s : ThreadPool)
    (h : ThreadPool.run (ThreadPool.init n) acts = some s) :
    s.submitted = s.taken.map Prod.snd ++ s.tasks ∧
    (∀ t, s.submitted.count t = (s.taken.map Prod.snd).count t + s.tasks.count t) ∧
    (∀ t, s.submitted.count t = 1 →
      (s.tasks.count t = 1 ∧ (s.taken.map Prod.snd).count t = 0) ∨
      (s.tasks.count t = 0 ∧ (s.taken.map Prod.snd).count t = 1)) ∧
    s.taken.map Prod.snd <+: s.submitted ∧
    (∀ e ∈ s.taken, e.1 < n) ∧
    (∀ i : Nat, s.workers[i]? = some Worker.exited → s.stop = true) ∧
    (∀ (a : Action) (s2 : ThreadPool) (i : Nat), s.step a = some s2 →
      s.workers[i]? ≠ some Worker.exited → s2.workers[i]? = some Worker.exited →
      s.stop = true ∧ s.tasks = []) := by
  obtain ⟨hsub, _, htaken, hexit⟩ := ThreadPool.inv_run n acts _ s (ThreadPool.inv_init n) h
  have hcount : ∀ t, s.submitted.count t = (s.taken.map Prod.snd).count t + s.tasks.count t := by
    intro t
    rw [hsub, List.count_append]
  refine ⟨hsub, hcount, ?_, ?_, htaken, hexit, ?_⟩
  · intro t ht
    have := hcount t
    omega
  · rw [hsub]
    exact List.prefix_append _ _
  · intro a s2 i hstep h1 h2
    exact ThreadPool.step_exit s s2 a i hstep h1 h2

/-- C9 (witness): two workers, two tasks; worker 1 takes the first task, shutdown is
requested, worker 0 still takes the second, worker 1 finishes and exits. -/
theorem pool_invariant_witness :
    ({ tasks := [], stop := true, workers := [Worker.running 6, Worker.exited],
       submitted := [5, 6], taken := [(1, 5), (0, 6)] } : ThreadPool).submitted =
      ({ tasks := [], stop := true, workers := [Worker.running 6, Worker.exited],
         submitted := [5, 6], taken := [(1, 5), (0, 6)] } : ThreadPool).taken.map Prod.snd ++
      ({ tasks := [], stop := true, workers := [Worker.running 6, Worker.exited],
         submitted := [5, 6], taken := [(1, 5), (0, 6)] } : ThreadPool).tasks :=
  (pool_invariant 2
    [Action.enqueue 5, Action.enqueue 6, Action.wake 1, Action.shutdown, Action.wake 0,
     Action.finish 1, Action.wake 1]
    { tasks := [], stop := true, workers := [Worker.running 6, Worker.exited],
      submitted := [5, 6], taken := [(1, 5), (0, 6)] }
    (by rfl)).1

end SimpleHttpServer
